/-
Formal model of the IC-JPEG codec library.

The definitions below are a shallow embedding of the C sources
(libimage/src/quantization.c, colorspace.c, dct_loeffler.c, dct_matrix.c,
dct_approx.c, dct_identity.c, codec.c utils, src/metrics.c).

Arithmetic conventions used throughout the embedding:
* C `/` on signed operands truncates toward zero; every denominator in the
  codec is positive, so we model it with `cdiv` below.
* C `>>` is an arithmetic right shift, which on two's-complement integers is
  exactly floor division by a power of two; Lean's `Int` `/` (Euclidean
  division) coincides with floor division for positive divisors, so shifts
  are embedded as `/ 2^k`.
* All products that the C code computes in `int64_t` stay well inside the
  64-bit range for the value ranges the codec feeds them, so plain `ℤ`
  arithmetic is a faithful model (no wrap-around occurs).
* The only `float` in the codec, the quality factor k, enters the integer
  pipeline solely through `k_fixed = (int32_t)(k * 1024)`; the model takes
  this fixed-point integer directly (exact for the qualities k ∈ {1,…,8}
  the specification discusses).
-/
import Mathlib

/-- C99 signed division, which truncates toward zero.  For a positive
denominator it is floor division on a nonnegative numerator and the negated
floor division of the negation otherwise. -/
def cdiv (a b : ℤ) : ℤ := if 0 ≤ a then a / b else -((-a) / b)

/-- Rounded signed division from dct_loeffler.c / dct_matrix.c:
result = sign(num) * (|num| + den/2) / den with truncation, den > 0. -/
def div_round (num den : ℤ) : ℤ :=
  if 0 ≤ num then cdiv (num + cdiv den 2) den else cdiv (num - cdiv den 2) den

/-- An 8×8 integer array (quantization table, DCT tile, …); the C code stores
it flat, entry (i,j) living at index i*8+j. -/
abbrev QTable : Type := Fin 8 → Fin 8 → ℤ

/-- Standard JPEG luminance table at Q=50 (quantization.c). -/
def Q50_LUMA : QTable :=
  ![![16, 11, 10, 16, 24, 40, 51, 61],
    ![12, 12, 14, 19, 26, 58, 60, 55],
    ![14, 13, 16, 24, 40, 57, 69, 56],
    ![14, 17, 22, 29, 51, 87, 80, 62],
    ![18, 22, 37, 56, 68, 109, 103, 77],
    ![24, 35, 55, 64, 81, 104, 113, 92],
    ![49, 64, 78, 87, 103, 121, 120, 101],
    ![72, 92, 95, 98, 112, 100, 103, 99]]

/-- Standard JPEG chrominance table at Q=50 (quantization.c). -/
def Q50_CHROMA : QTable :=
  ![![17, 18, 24, 47, 99, 99, 99, 99],
    ![18, 21, 26, 66, 99, 99, 99, 99],
    ![24, 26, 56, 99, 99, 99, 99, 99],
    ![47, 66, 99, 99, 99, 99, 99, 99],
    ![99, 99, 99, 99, 99, 99, 99, 99],
    ![99, 99, 99, 99, 99, 99, 99, 99],
    ![99, 99, 99, 99, 99, 99, 99, 99],
    ![99, 99, 99, 99, 99, 99, 99, 99]]

/-- scale_quant_table (quantization.c): entry-wise (base * k_fixed) >> 10,
clamped below by 1.  The float quality k only enters through
k_fixed = (int32_t)(k*1024), which this model takes directly. -/
def scale_quant_table (base : QTable) (kFixed : ℤ) : QTable :=
  fun i j =>
    let scaled := base i j * kFixed / 1024
    if scaled < 1 then 1 else scaled

/-- One entry of compute_reciprocal_table (quantization.c):
recip = ((1 << 16) + q/2) / q.  The C computation is done in uint32_t; for
the positive table entries the codec produces it agrees with this integer
expression. -/
def reciprocal_entry (q : ℤ) : ℤ := (65536 + cdiv q 2) / q

/-- compute_reciprocal_table (quantization.c), entry-wise over the table. -/
def compute_reciprocal_table (qt : QTable) : QTable :=
  fun i j => reciprocal_entry (qt i j)

/-- Loop body of quantize_fast (quantization.c): reciprocal-multiply
quantization of a single coefficient.  The `>> 16` of the nonnegative 64-bit
product is floor division by 2^16. -/
def quantize_fast_entry (d q r : ℤ) : ℤ :=
  if 0 ≤ d then (d + q / 2) * r / 65536
  else -(((-d) + q / 2) * r / 65536)

/-- quantize_fast (quantization.c): the i-loop applies the body to each of
the 64 entries. -/
def quantize_fast (dct qt rt : QTable) : QTable :=
  fun i j => quantize_fast_entry (dct i j) (qt i j) (rt i j)

/-- Loop body of quantize (quantization.c): division-based quantization of a
single coefficient, sign(c) * (|c| + q/2) / q with C truncating division. -/
def quantize_entry (d q : ℤ) : ℤ :=
  if 0 ≤ d then cdiv (d + q / 2) q else cdiv (d - q / 2) q

/-- quantize (quantization.c), entry-wise over the block. -/
def quantize (dct qt : QTable) : QTable :=
  fun i j => quantize_entry (dct i j) (qt i j)

/-- dequantize (quantization.c): plain entry-wise multiply. -/
def dequantize (qin qt : QTable) : QTable :=
  fun i j => qin i j * qt i j

/-- Row norms of the Cintra–Bayer transform, times 1024 (quantization.c):
sqrt 8 = 2896, sqrt 6 = 2508, sqrt 4 = 2048. -/
def APPROX_NORM_1024 : Fin 8 → ℤ :=
  ![2896, 2508, 2048, 2508, 2896, 2508, 2048, 2508]

/-- apply_approx_norm_correction (quantization.c): entry (i,j) becomes
(Q[i,j] * N[i] * N[j] + 524288) / 1048576 with C truncating division,
clamped below by 1. -/
def apply_approx_norm_correction (qt : QTable) : QTable :=
  fun i j =>
    let n := APPROX_NORM_1024 i * APPROX_NORM_1024 j
    let scaled := cdiv (qt i j * n + 524288) 1048576
    if scaled < 1 then 1 else scaled

/-- Per-pixel RGB → YCbCr from colorspace.c (rgb_to_ycbcr and the loop body
of rgb_to_ycbcr_batch, which are the same computation):
returns (Y, Cb, Cr). -/
def rgb_to_ycbcr (r g b : ℤ) : ℤ × ℤ × ℤ :=
  (cdiv (299*r + 587*g + 114*b + 500) 1000 - 128,
   cdiv ((-169)*r - 331*g + 500*b + 500) 1000,
   cdiv (500*r - 419*g - 81*b + 500) 1000)

/-- Modelled from the spec: round(n/d) as rounding the exact rational n/d to
the nearest integer (ties toward +∞), for positive d; used to compare the
code's fixed-point color transform with the specification's wording. -/
def round_nearest (n d : ℤ) : ℤ := (2*n + d) / (2*d)

/- ------------------------------------------------------------------ -/
/- Basic arithmetic lemmas about the embedding primitives.            -/
/- ------------------------------------------------------------------ -/

theorem cdiv_of_nonneg {a : ℤ} (b : ℤ) (h : 0 ≤ a) : cdiv a b = a / b := by
  simp [cdiv, h]

theorem cdiv_of_neg {a : ℤ} (b : ℤ) (h : ¬ 0 ≤ a) : cdiv a b = -((-a) / b) := by
  simp [cdiv, h]

/-- C truncating division by 1000 differs from floor division by at most one,
and agrees with it on nonnegative numerators. -/
theorem cdiv_mod1000_bounds (m : ℤ) :
    m / 1000 ≤ cdiv m 1000 ∧ cdiv m 1000 ≤ m / 1000 + 1 ∧
      (0 ≤ m → cdiv m 1000 = m / 1000) := by
  unfold cdiv
  split <;> omega

/-- round_nearest n 1000 is floor division of n + 500 by 1000. -/
theorem round_nearest_1000 (n : ℤ) : round_nearest n 1000 = (n + 500) / 1000 := by
  unfold round_nearest
  have h : 2*n + 1000 = 2 * (n + 500) := by ring
  have h2 : (2:ℤ) * 1000 = 2 * 1000 := rfl
  rw [h, h2, Int.mul_ediv_mul_of_pos _ _ (by norm_num : (0:ℤ) < 2)]

/-- Helper: multiplying by r and flooring by 65536 is division by q whenever
r * q = 65536 exactly (the power-of-two reciprocal case). -/
theorem mul_recip_ediv (v q r : ℤ) (hr : 0 < r) (h : r * q = 65536) :
    v * r / 65536 = v / q := by
  rw [← h, mul_comm v r, Int.mul_ediv_mul_of_pos _ _ hr]

/-- Reciprocal entries of the power-of-two table values are exact:
reciprocal_entry (2^s) * 2^s = 65536 for s ≤ 7, and they are positive. -/
theorem reciprocal_entry_pow2 (s : ℕ) (hs : s ≤ 7) :
    0 < reciprocal_entry (2^s) ∧ reciprocal_entry (2^s) * 2^s = 65536 := by
  interval_cases s <;> exact ⟨by decide, by decide⟩

/-- C4 (amended).  The reciprocal quantizer agrees exactly with the division
quantizer, for every coefficient c with |c| ≤ 2^20, whenever the table entry
is a power of two 2^s ≤ 128.  (For general table entries in [1,255] the two
paths can disagree; see the counterexample at c = 2, q = 3.) -/
theorem quantize_fast_eq_quantize_pow2 (c : ℤ) (s : ℕ) (hs : s ≤ 7)
    (hc : c.natAbs ≤ 2^20) :
    quantize_fast_entry c (2^s) (reciprocal_entry (2^s)) = quantize_entry c (2^s) := by
  obtain ⟨hrpos, hrq⟩ := reciprocal_entry_pow2 s hs
  have hq : (0:ℤ) < 2^s := by positivity
  have hhalf : (0:ℤ) ≤ 2^s / 2 := by positivity
  unfold quantize_fast_entry quantize_entry
  split
  · -- c ≥ 0 : the numerator c + q/2 is nonnegative in both paths
    next hcpos =>
      rw [cdiv_of_nonneg _ (by omega)]
      exact mul_recip_ediv _ _ _ hrpos hrq
  · -- c < 0 : quantize divides c - q/2 < 0, truncation flips to -((-c + q/2)/q)
    next hcneg =>
      rw [cdiv_of_neg _ (by omega)]
      have : -(c - 2^s/2) = -c + 2^s/2 := by ring
      rw [this, mul_recip_ediv _ _ _ hrpos hrq]

/-- Witness for C4's amended theorem at c = 5, s = 1. -/
theorem quantize_fast_eq_quantize_pow2_witness :
    (1 ≤ 7 ∧ (5:ℤ).natAbs ≤ 2^20) ∧
      quantize_fast_entry 5 (2^1) (reciprocal_entry (2^1)) = quantize_entry 5 (2^1) :=
  ⟨⟨by decide, by norm_num⟩, quantize_fast_eq_quantize_pow2 5 1 (by decide) (by norm_num)⟩

/-- C4 (counterexample).  At coefficient c = 2 and table entry q = 3 — inside
the claimed ranges |c| ≤ 2^20 and q ∈ [1,255] — the reciprocal path returns 0
while the division path returns 1. -/
theorem quantize_fast_div_mismatch_at_2_3 :
    quantize_fast_entry 2 3 (reciprocal_entry 3) = 0 ∧ quantize_entry 2 3 = 1 ∧
      (2:ℤ).natAbs ≤ 2^20 ∧ (1:ℤ) ≤ 3 ∧ (3:ℤ) ≤ 255 := by
  refine ⟨by decide, by decide, by norm_num, by decide, by decide⟩

/-- C7 (counterexample).  At the RGB pixel (2,1,0) the weighted Cb sum is
-669; the nearest integer to -669/1000 is -1 (strictly nearer than 0), but
the code returns 0. -/
theorem rgb_to_ycbcr_cb_not_nearest :
    (rgb_to_ycbcr 2 1 0).2.1 = 0 ∧
      (-169)*2 - 331*1 + 500*0 = (-669 : ℤ) ∧
      round_nearest (-669) 1000 = -1 ∧
      (1000*(-1) - (-669) : ℤ).natAbs < ((1000*0 - (-669) : ℤ)).natAbs := by
  refine ⟨by decide, by decide, by decide, by decide⟩

/-- C7 (amended).  For every RGB pixel with components in [0,255]: the Y
channel equals round((299R+587G+114B)/1000) − 128 exactly (the weighted sum
is nonnegative there).  For Cb and Cr the code computes the C truncating
division (s+500)/1000 of the weighted sum s: the result equals
nearest-integer rounding whenever s ≥ −500 (in particular whenever s ≥ 0),
and in general lies in {round(s/1000), round(s/1000)+1}. -/
theorem rgb_to_ycbcr_rounding (r g b : ℤ)
    (hr : 0 ≤ r ∧ r ≤ 255) (hg : 0 ≤ g ∧ g ≤ 255) (hb : 0 ≤ b ∧ b ≤ 255) :
    ((rgb_to_ycbcr r g b).1 = round_nearest (299*r + 587*g + 114*b) 1000 - 128) ∧
    (round_nearest ((-169)*r - 331*g + 500*b) 1000 ≤ (rgb_to_ycbcr r g b).2.1 ∧
      (rgb_to_ycbcr r g b).2.1 ≤ round_nearest ((-169)*r - 331*g + 500*b) 1000 + 1 ∧
      (-500 ≤ (-169)*r - 331*g + 500*b →
        (rgb_to_ycbcr r g b).2.1 = round_nearest ((-169)*r - 331*g + 500*b) 1000)) ∧
    (round_nearest (500*r - 419*g - 81*b) 1000 ≤ (rgb_to_ycbcr r g b).2.2 ∧
      (rgb_to_ycbcr r g b).2.2 ≤ round_nearest (500*r - 419*g - 81*b) 1000 + 1 ∧
      (-500 ≤ 500*r - 419*g - 81*b →
        (rgb_to_ycbcr r g b).2.2 = round_nearest (500*r - 419*g - 81*b) 1000)) := by
  unfold rgb_to_ycbcr
  have hy := cdiv_mod1000_bounds (299*r + 587*g + 114*b + 500)
  have hcb := cdiv_mod1000_bounds ((-169)*r - 331*g + 500*b + 500)
  have hcr := cdiv_mod1000_bounds (500*r - 419*g - 81*b + 500)
  rw [round_nearest_1000, round_nearest_1000, round_nearest_1000]
  refine ⟨?_, ⟨?_, ?_, ?_⟩, ⟨?_, ?_, ?_⟩⟩ <;> simp only <;> omega

/-- Witness for C7's amended theorem at the pixel (10, 20, 30). -/
theorem rgb_to_ycbcr_rounding_witness :
    ((0:ℤ) ≤ 10 ∧ (10:ℤ) ≤ 255) ∧
      (rgb_to_ycbcr 10 20 30).1 = round_nearest (299*10 + 587*20 + 114*30) 1000 - 128 := by
  have h := rgb_to_ycbcr_rounding 10 20 30 (by decide) (by decide) (by decide)
  exact ⟨by decide, h.1⟩

/- ------------------------------------------------------------------ -/
/- Block transforms.                                                  -/
/- ------------------------------------------------------------------ -/

/-- Fixed-point trigonometric constants scaled by 2^20 (internal.h). -/
def C1 : ℤ := 1028428
def S1 : ℤ := 204567
def C3 : ℤ := 871859
def S3 : ℤ := 582558
def C6 : ℤ := 401273
def S6 : ℤ := 968758
def SQRT_2 : ℤ := 1482910
def SCALE_CONST : ℤ := 1048576

/-- Forward 1D Loeffler DCT (dct_loeffler.c dct_1d_stride; both revisions of
that file contain the identical forward pass).  The strided reads
src[i*stride] are the eight inputs; the vector below lists dst[0]..dst[7]
(the C code assigns them in the order 0,4,2,6,1,3,5,7). -/
def dct_loeffler_1d (src : Fin 8 → ℤ) : Fin 8 → ℤ :=
  let s07 := src 0 + src 7
  let d07 := src 0 - src 7
  let s16 := src 1 + src 6
  let d16 := src 1 - src 6
  let s25 := src 2 + src 5
  let d25 := src 2 - src 5
  let s34 := src 3 + src 4
  let d34 := src 3 - src 4
  let e0 := s07 + s34
  let e3 := s07 - s34
  let e1 := s16 + s25
  let e2 := s16 - s25
  let o0 := d07 + d34
  let o1 := d16 + d25
  let o2 := d16 - d25
  let o3 := d07 - d34
  ![div_round ((e0 + e1) * SCALE_CONST) (SQRT_2 * 2),
    div_round (C3*o0 + C1*o1 + S1*o2 + S3*o3) (SQRT_2 * 2),
    div_round (C6 * e2 + S6 * e3) (SCALE_CONST * 2),
    div_round (S1*o0 - C3*o1 + S3*o2 + C1*o3) (SQRT_2 * 2),
    div_round ((e0 - e1) * SCALE_CONST) (SQRT_2 * 2),
    div_round (C1*o0 - S3*o1 - C3*o2 - S1*o3) (SQRT_2 * 2),
    div_round (-S6 * e2 + C6 * e3) (SCALE_CONST * 2),
    div_round (-S3*o0 + S1*o1 - C1*o2 + C3*o3) (SQRT_2 * 2)]

/-- Shared row–column 2D driver: the four forward 2D transforms in the C
sources are textually identical up to the 1D kernel.  Rows are transformed
into temp (temp[y*8+k] = f(row y)[k]), then columns of temp are transformed
(out[x*8+k] = f(col x)[k]), and the final loop transposes out. -/
def fwd_2d_rowcol (f : (Fin 8 → ℤ) → Fin 8 → ℤ) (inp : QTable) : QTable :=
  let temp : QTable := fun y => f (inp y)
  let out : QTable := fun x => f (fun i => temp i x)
  fun y x => out x y

/-- dct_loeffler_2d (dct_loeffler.c). -/
def dct_loeffler_2d (inp : QTable) : QTable := fwd_2d_rowcol dct_loeffler_1d inp

/-- Cosine matrix of libimage/src/dct_matrix.c: cos(pi*k*(2n+1)/16) * 2048
(the in-tree SCALE = 2048 variant). -/
def C_2048 : QTable :=
  ![![2048, 2048, 2048, 2048, 2048, 2048, 2048, 2048],
    ![2009, 1703, 1138, 400, -400, -1138, -1703, -2009],
    ![1892, 784, -784, -1892, -1892, -784, 784, 1892],
    ![1703, -400, -2009, -1138, 1138, 2009, 400, -1703],
    ![1448, -1448, -1448, 1448, 1448, -1448, -1448, 1448],
    ![1138, -2009, 400, 1703, -1703, -400, 2009, -1138],
    ![784, -1892, 1892, -784, -784, 1892, -1892, 784],
    ![400, -1138, 1703, -2009, 2009, -1703, 1138, -400]]

/-- Norm factors of libimage/src/dct_matrix.c: NORM_0 = 724, NORM_K = 1024. -/
def NORM_2048 : Fin 8 → ℤ := ![724, 1024, 1024, 1024, 1024, 1024, 1024, 1024]

/-- Forward 1D matrix DCT (libimage/src/dct_matrix.c dct_1d_stride, SCALE
2048): dst[k] = div_round(sum * NORM[k], SCALE^2) with the eight-term
multiply–accumulate done in int64. -/
def dct_matrix_1d (src : Fin 8 → ℤ) : Fin 8 → ℤ :=
  fun k =>
    let sum := src 0 * C_2048 k 0 + src 1 * C_2048 k 1 + src 2 * C_2048 k 2 +
               src 3 * C_2048 k 3 + src 4 * C_2048 k 4 + src 5 * C_2048 k 5 +
               src 6 * C_2048 k 6 + src 7 * C_2048 k 7
    div_round (sum * NORM_2048 k) (2048 * 2048)

/-- dct_matrix_2d (libimage/src/dct_matrix.c). -/
def dct_matrix_2d (inp : QTable) : QTable := fwd_2d_rowcol dct_matrix_1d inp

/-- Cosine matrix of the repository's second dct_matrix.c revision
(src/unnamed/part_004): cos(pi*k*(2n+1)/16) * 2^20. -/
def C_S20 : QTable :=
  ![![1048576, 1048576, 1048576, 1048576, 1048576, 1048576, 1048576, 1048576],
    ![1028428, 871859, 582558, 204567, -204567, -582558, -871859, -1028428],
    ![968758, 401273, -401273, -968758, -968758, -401273, 401273, 968758],
    ![871859, -204567, -1028428, -582558, 582558, 1028428, 204567, -871859],
    ![741455, -741455, -741455, 741455, 741455, -741455, -741455, 741455],
    ![582558, -1028428, 204567, 871859, -871859, -204567, 1028428, -582558],
    ![401273, -968758, 968758, -401273, -401273, 968758, -968758, 401273],
    ![204567, -582558, 871859, -1028428, 1028428, -871859, 582558, -204567]]

/-- Norm factors of the 2^20-scale dct_matrix.c revision:
NORM_0 = 370728, NORM_K = 524288. -/
def NORM_S20 : Fin 8 → ℤ := ![370728, 524288, 524288, 524288, 524288, 524288, 524288, 524288]

/-- Forward 1D matrix DCT of the 2^20-scale revision (src/unnamed/part_004). -/
def dct_matrix_s20_1d (src : Fin 8 → ℤ) : Fin 8 → ℤ :=
  fun k =>
    let sum := src 0 * C_S20 k 0 + src 1 * C_S20 k 1 + src 2 * C_S20 k 2 +
               src 3 * C_S20 k 3 + src 4 * C_S20 k 4 + src 5 * C_S20 k 5 +
               src 6 * C_S20 k 6 + src 7 * C_S20 k 7
    div_round (sum * NORM_S20 k) (1048576 * 1048576)

/-- Forward 2D matrix DCT of the 2^20-scale revision. -/
def dct_matrix_s20_2d (inp : QTable) : QTable := fwd_2d_rowcol dct_matrix_s20_1d inp

/-- Forward 1D Cintra–Bayer approximate DCT (dct_approx.c dct_1d_stride):
additions and subtractions only. -/
def dct_approx_1d (src : Fin 8 → ℤ) : Fin 8 → ℤ :=
  let x0 := src 0
  let x1 := src 1
  let x2 := src 2
  let x3 := src 3
  let x4 := src 4
  let x5 := src 5
  let x6 := src 6
  let x7 := src 7
  ![x0 + x1 + x2 + x3 + x4 + x5 + x6 + x7,
    x0 + x1 + x2 - x5 - x6 - x7,
    x0 - x3 - x4 + x7,
    x0 - x2 - x3 + x4 + x5 - x7,
    x0 - x1 - x2 + x3 + x4 - x5 - x6 + x7,
    x0 - x1 + x3 - x4 + x6 - x7,
    -x1 + x2 + x5 - x6,
    -x1 + x2 - x3 + x4 - x5 + x6]

/-- dct_approx_2d (dct_approx.c). -/
def dct_approx_2d (inp : QTable) : QTable := fwd_2d_rowcol dct_approx_1d inp

/-- dct_identity_2d (dct_identity.c): memcpy of the 64 entries. -/
def dct_identity_2d (inp : QTable) : QTable := inp

/-- Single-coefficient test tile for C3: value −81 at flat index 1
(row 0, column 1), zero elsewhere.  It arises as the Y tile of the 8×8
grayscale image whose pixel (0,1) is 47 and whose other pixels are 128. -/
def c3_tile : QTable := fun y x => if y = 0 ∧ x = 1 then -81 else 0

/-- C3 (code evaluated at the failing input).  At c3_tile with quality
k = 1 (k_fixed = 1024) the Loeffler transform and the in-tree SCALE-2048
matrix transform quantize to different arrays: flat coefficient 10
(row 1, column 2) is 0 under Loeffler but −1 under the matrix path.  The
repository's 2^20-scale matrix revision — the variant the specification
calls authoritative — agrees with Loeffler on this tile. -/
theorem loeffler_vs_matrix_quantized_mismatch :
    quantize_fast (dct_loeffler_2d c3_tile)
        (scale_quant_table Q50_LUMA 1024)
        (compute_reciprocal_table (scale_quant_table Q50_LUMA 1024)) ≠
      quantize_fast (dct_matrix_2d c3_tile)
        (scale_quant_table Q50_LUMA 1024)
        (compute_reciprocal_table (scale_quant_table Q50_LUMA 1024)) ∧
    quantize_fast (dct_loeffler_2d c3_tile)
        (scale_quant_table Q50_LUMA 1024)
        (compute_reciprocal_table (scale_quant_table Q50_LUMA 1024)) 1 2 = 0 ∧
    quantize_fast (dct_matrix_2d c3_tile)
        (scale_quant_table Q50_LUMA 1024)
        (compute_reciprocal_table (scale_quant_table Q50_LUMA 1024)) 1 2 = -1 ∧
    quantize_fast (dct_matrix_s20_2d c3_tile)
        (scale_quant_table Q50_LUMA 1024)
        (compute_reciprocal_table (scale_quant_table Q50_LUMA 1024)) =
      quantize_fast (dct_loeffler_2d c3_tile)
        (scale_quant_table Q50_LUMA 1024)
        (compute_reciprocal_table (scale_quant_table Q50_LUMA 1024)) := by
  refine ⟨by decide, by decide, by decide, by decide⟩

/- ------------------------------------------------------------------ -/
/- Block extraction (codec.c utils): memory model.                    -/
/-                                                                    -/
/- Flat int32 arrays are modelled as total functions ℕ → ℤ; a C store -/
/- dst[i] = v is the point update upd, and a loop that stores a run   -/
/- of consecutive cells is writeSeq on the list of stored values.     -/
/- ------------------------------------------------------------------ -/

/-- Point update of a flat array. -/
def upd (m : ℕ → ℤ) (i : ℕ) (v : ℤ) : ℕ → ℤ := fun n => if n = i then v else m n

/-- Store the values vs at consecutive indices base, base+1, … (the effect of
a C loop writing a contiguous run through an advancing pointer). -/
def writeSeq : (ℕ → ℤ) → ℕ → List ℤ → ℕ → ℤ
  | m, _, [] => m
  | m, base, v :: vs => writeSeq (upd m base v) (base + 1) vs

/-- Reading back after writeSeq: inside the written window the stored value,
outside it the previous memory. -/
theorem writeSeq_apply (vs : List ℤ) : ∀ (m : ℕ → ℤ) (base n : ℕ),
    writeSeq m base vs n =
      if base ≤ n ∧ n < base + vs.length then vs.getD (n - base) 0 else m n := by
  induction vs with
  | nil =>
    intro m base n
    rw [writeSeq, if_neg]
    simp only [List.length_nil]
    omega
  | cons v vs ih =>
    intro m base n
    rw [writeSeq, ih]
    by_cases he : n = base
    · subst he
      rw [if_neg (by omega), if_pos ⟨le_refl _, by simp only [List.length_cons]; omega⟩]
      simp [upd]
    · by_cases hin : base + 1 ≤ n ∧ n < base + 1 + vs.length
      · rw [if_pos hin, if_pos (by simp only [List.length_cons]; omega)]
        have hnb : n - base = (n - (base + 1)) + 1 := by omega
        rw [hnb, List.getD_cons_succ]
      · rw [if_neg hin, if_neg (by simp only [List.length_cons]; omega)]
        simp [upd, he]

/-- A counted for-loop, iterating body on indices 0, 1, …, cnt-1 in order. -/
def loopN (cnt : ℕ) (body : ℕ → (ℕ → ℤ) → ℕ → ℤ) (m : ℕ → ℤ) : ℕ → ℤ :=
  match cnt with
  | 0 => m
  | k+1 => body k (loopN k body m)

/-- A loop writing one 64-cell block per iteration, block i based at
base i * 64 (the shape of every per-block loop in codec.c). -/
def blockLoop (cnt : ℕ) (base : ℕ → ℕ) (vals : ℕ → List ℤ) (m : ℕ → ℤ) : ℕ → ℤ :=
  loopN cnt (fun i mem => writeSeq mem (base i * 64) (vals i)) m

/-- If no iteration's block is the one containing n, a blockLoop leaves
cell n unchanged. -/
theorem blockLoop_miss (base : ℕ → ℕ) (vals : ℕ → List ℤ) (n : ℕ) :
    ∀ (cnt : ℕ) (m : ℕ → ℤ),
      (∀ i, i < cnt → (vals i).length ≤ 64) →
      (∀ i, i < cnt → base i ≠ n / 64) →
      blockLoop cnt base vals m n = m n := by
  intro cnt
  induction cnt with
  | zero => intro m _ _; rfl
  | succ k ih =>
    intro m hlen hmiss
    show writeSeq (blockLoop k base vals m) (base k * 64) (vals k) n = m n
    rw [writeSeq_apply, if_neg]
    · exact ih m (fun i hi => hlen i (by omega)) (fun i hi => hmiss i (by omega))
    · have h1 := hlen k (by omega)
      have h2 := hmiss k (by omega)
      omega

/-- If iteration i writes the block containing n (and no other iteration
uses that block), cell n reads back value n % 64 of that block's run. -/
theorem blockLoop_hit (base : ℕ → ℕ) (vals : ℕ → List ℤ) (n i : ℕ) :
    ∀ (cnt : ℕ) (m : ℕ → ℤ),
      i < cnt →
      (∀ j, j < cnt → (vals j).length = 64) →
      (∀ j, j < cnt → j ≠ i → base j ≠ base i) →
      n / 64 = base i →
      blockLoop cnt base vals m n = (vals i).getD (n % 64) 0 := by
  intro cnt
  induction cnt with
  | zero => intro m hi _ _ _; omega
  | succ k ih =>
    intro m hi hlen hinj hn
    show writeSeq (blockLoop k base vals m) (base k * 64) (vals k) n = _
    by_cases hik : i = k
    · subst hik
      rw [writeSeq_apply, if_pos]
      · congr 1
        have := hlen i (by omega)
        omega
      · have := hlen i (by omega)
        omega
    · rw [writeSeq_apply, if_neg]
      · exact ih m (by omega) (fun j hj => hlen j (by omega))
          (fun j hj => hinj j (by omega)) hn
      · have h1 := hlen k (by omega)
        have h2 := hinj k (by omega) (fun h => hik h.symm)
        omega

/-- Reading a 64-entry generated list. -/
theorem getD_ofFn64 (f : Fin 64 → ℤ) (p : ℕ) (hp : p < 64) :
    (List.ofFn f).getD p 0 = f ⟨p, hp⟩ := by
  rw [List.getD_eq_getElem?_getD, List.getElem?_ofFn]
  simp [List.ofFnNthVal, hp]

/-- Row-major block ids are unique: j*bx + i with i < bx determines (j, i). -/
theorem blockId_unique {bx j i r c : ℕ} (hbx : 0 < bx) (hi : i < bx) (hc : c < bx)
    (h : j * bx + i = r * bx + c) : j = r ∧ i = c := by
  have h' : i + bx * j = c + bx * r := by
    rw [Nat.mul_comm bx j, Nat.mul_comm bx r]; omega
  have e1 : (i + bx * j) / bx = i / bx + j := Nat.add_mul_div_left i j hbx
  have e2 : (c + bx * r) / bx = c / bx + r := Nat.add_mul_div_left c r hbx
  have e3 : i / bx + j = c / bx + r := by rw [← e1, ← e2, h']
  have hi0 : i / bx = 0 := Nat.div_eq_of_lt hi
  have hc0 : c / bx = 0 := Nat.div_eq_of_lt hc
  have hj : j = r := by omega
  subst hj
  exact ⟨rfl, by omega⟩

/-- Values stored for a full (center) block (j,i) by extract_center_blocks
(codec.c): the unrolled 8×8 copy stores, at run offset p = y*8+k, the
channel sample at row j*8+y, column i*8+k. -/
def center_block_vals (ch : ℕ → ℤ) (W j i : ℕ) : List ℤ :=
  List.ofFn (fun p : Fin 64 => ch ((j*8 + p.val/8) * W + (i*8 + p.val % 8)))

theorem center_block_vals_length (ch : ℕ → ℤ) (W j i : ℕ) :
    (center_block_vals ch W j i).length = 64 := by
  simp [center_block_vals]

theorem center_block_vals_getD (ch : ℕ → ℤ) (W j i y x : ℕ) (hy : y < 8) (hx : x < 8) :
    (center_block_vals ch W j i).getD (y*8+x) 0 = ch ((j*8+y) * W + (i*8+x)) := by
  unfold center_block_vals
  rw [getD_ofFn64 _ _ (by omega)]
  have e1 : (y*8+x)/8 = y := by omega
  have e2 : (y*8+x) % 8 = x := by omega
  simp only [e1, e2]

/-- Values stored for a right-edge block (j, bx_full) by extract_edge_blocks:
px = width - bx_full*8 samples per row are copied, the rest zero-filled. -/
def right_col_vals (ch : ℕ → ℤ) (W px bxf j : ℕ) : List ℤ :=
  List.ofFn (fun p : Fin 64 =>
    if p.val % 8 < px then ch ((j*8 + p.val/8) * W + (bxf*8 + p.val % 8)) else 0)

theorem right_col_vals_length (ch : ℕ → ℤ) (W px bxf j : ℕ) :
    (right_col_vals ch W px bxf j).length = 64 := by
  simp [right_col_vals]

theorem right_col_vals_getD (ch : ℕ → ℤ) (W px bxf j y x : ℕ) (hy : y < 8) (hx : x < 8) :
    (right_col_vals ch W px bxf j).getD (y*8+x) 0 =
      if x < px then ch ((j*8+y) * W + (bxf*8+x)) else 0 := by
  unfold right_col_vals
  rw [getD_ofFn64 _ _ (by omega)]
  have e1 : (y*8+x)/8 = y := by omega
  have e2 : (y*8+x) % 8 = x := by omega
  simp only [e1, e2]

/-- Values stored for a bottom-edge block (by_full, i): py = height -
by_full*8 full rows are copied, the remaining rows zero-filled. -/
def bottom_row_vals (ch : ℕ → ℤ) (W py byf i : ℕ) : List ℤ :=
  List.ofFn (fun p : Fin 64 =>
    if p.val / 8 < py then ch ((byf*8 + p.val/8) * W + (i*8 + p.val % 8)) else 0)

theorem bottom_row_vals_length (ch : ℕ → ℤ) (W py byf i : ℕ) :
    (bottom_row_vals ch W py byf i).length = 64 := by
  simp [bottom_row_vals]

theorem bottom_row_vals_getD (ch : ℕ → ℤ) (W py byf i y x : ℕ) (hy : y < 8) (hx : x < 8) :
    (bottom_row_vals ch W py byf i).getD (y*8+x) 0 =
      if y < py then ch ((byf*8+y) * W + (i*8+x)) else 0 := by
  unfold bottom_row_vals
  rw [getD_ofFn64 _ _ (by omega)]
  have e1 : (y*8+x)/8 = y := by omega
  have e2 : (y*8+x) % 8 = x := by omega
  simp only [e1, e2]

/-- Values stored for the bottom-right corner block (by_full, bx_full):
py rows of px copied samples, everything else zero-filled. -/
def corner_vals (ch : ℕ → ℤ) (W px py bxf byf : ℕ) : List ℤ :=
  List.ofFn (fun p : Fin 64 =>
    if p.val / 8 < py ∧ p.val % 8 < px
    then ch ((byf*8 + p.val/8) * W + (bxf*8 + p.val % 8)) else 0)

theorem corner_vals_length (ch : ℕ → ℤ) (W px py bxf byf : ℕ) :
    (corner_vals ch W px py bxf byf).length = 64 := by
  simp [corner_vals]

theorem corner_vals_getD (ch : ℕ → ℤ) (W px py bxf byf y x : ℕ) (hy : y < 8) (hx : x < 8) :
    (corner_vals ch W px py bxf byf).getD (y*8+x) 0 =
      if y < py ∧ x < px then ch ((byf*8+y) * W + (bxf*8+x)) else 0 := by
  unfold corner_vals
  rw [getD_ofFn64 _ _ (by omega)]
  have e1 : (y*8+x)/8 = y := by omega
  have e2 : (y*8+x) % 8 = x := by omega
  simp only [e1, e2]

/-- extract_center_blocks (codec.c utils): for j < by_full, for i < bx_full,
copy the full 8×8 block (j,i) into the run based at (j*bx+i)*64. -/
def extract_center_blocks (ch : ℕ → ℤ) (W bx bxf byf : ℕ) (m : ℕ → ℤ) : ℕ → ℤ :=
  loopN byf (fun j mem =>
    blockLoop bxf (fun i => j*bx + i) (fun i => center_block_vals ch W j i) mem) m

/-- Right-column region of extract_edge_blocks (codec.c utils). -/
def extract_edge_right (ch : ℕ → ℤ) (W bx bxf byf : ℕ) (m : ℕ → ℤ) : ℕ → ℤ :=
  if bxf < bx then
    blockLoop byf (fun j => j*bx + bxf) (fun j => right_col_vals ch W (W - bxf*8) bxf j) m
  else m

/-- Bottom-row region of extract_edge_blocks (codec.c utils). -/
def extract_edge_bottom (ch : ℕ → ℤ) (W H bx byCnt bxf byf : ℕ) (m : ℕ → ℤ) : ℕ → ℤ :=
  if byf < byCnt then
    blockLoop bxf (fun i => byf*bx + i) (fun i => bottom_row_vals ch W (H - byf*8) byf i) m
  else m

/-- Bottom-right corner region of extract_edge_blocks (codec.c utils). -/
def extract_edge_corner (ch : ℕ → ℤ) (W H bx byCnt bxf byf : ℕ) (m : ℕ → ℤ) : ℕ → ℤ :=
  if bxf < bx ∧ byf < byCnt then
    writeSeq m ((byf*bx + bxf)*64) (corner_vals ch W (W - bxf*8) (H - byf*8) bxf byf)
  else m

/-- extract_edge_blocks (codec.c utils): right column, then bottom row, then
the corner block. -/
def extract_edge_blocks (ch : ℕ → ℤ) (W H bx byCnt bxf byf : ℕ) (m : ℕ → ℤ) : ℕ → ℤ :=
  extract_edge_corner ch W H bx byCnt bxf byf
    (extract_edge_bottom ch W H bx byCnt bxf byf
      (extract_edge_right ch W bx bxf byf m))

/-- extract_blocks (codec.c utils): allocate a zero-initialized array of
bx*by blocks (CODEC_CALLOC), fill the center blocks, then — when the image
is not a multiple of 8 in some direction — the edge blocks.  Returns the
array together with the stored num_blocks = bx*by. -/
def extract_blocks (ch : ℕ → ℤ) (W H : ℕ) : (ℕ → ℤ) × ℕ :=
  ((if W/8 < (W+7)/8 ∨ H/8 < (H+7)/8 then
      extract_edge_blocks ch W H ((W+7)/8) ((H+7)/8) (W/8) (H/8)
        (extract_center_blocks ch W ((W+7)/8) (W/8) (H/8) (fun _ => 0))
    else
      extract_center_blocks ch W ((W+7)/8) (W/8) (H/8) (fun _ => 0)),
   ((W+7)/8) * ((H+7)/8))

/-- Reading back after the center pass: block (r,c) offset (y,x) holds the
channel sample when r and c index a full block, and is untouched otherwise. -/
theorem extract_center_apply (ch : ℕ → ℤ) (W bx bxf byf : ℕ)
    (r c y x : ℕ) (hbx : 0 < bx) (hbxf : bxf ≤ bx) (hc : c < bx)
    (hy : y < 8) (hx : x < 8) :
    ∀ (t : ℕ) (m : ℕ → ℤ), t ≤ byf →
      loopN t (fun j mem =>
          blockLoop bxf (fun i => j*bx + i) (fun i => center_block_vals ch W j i) mem)
        m ((r*bx+c)*64 + (y*8+x)) =
      if r < t ∧ c < bxf then ch ((r*8+y) * W + (c*8+x))
      else m ((r*bx+c)*64 + (y*8+x)) := by
  intro t
  induction t with
  | zero => intro m _; rw [if_neg (by omega)]; rfl
  | succ k ih =>
    intro m ht
    show blockLoop bxf (fun i => k*bx + i) (fun i => center_block_vals ch W k i)
        (loopN k _ m) ((r*bx+c)*64 + (y*8+x)) = _
    have hdiv : ((r*bx+c)*64 + (y*8+x)) / 64 = r*bx + c := by omega
    by_cases hrk : r = k
    · by_cases hcb : c < bxf
      · subst hrk
        rw [blockLoop_hit (fun i => r*bx + i) _ _ c _ _ hcb
              (fun j _ => center_block_vals_length ch W r j)
              (fun j _ hne => by show r*bx + j ≠ r*bx + c; omega) hdiv]
        have hmod : ((r*bx+c)*64 + (y*8+x)) % 64 = y*8+x := by omega
        rw [hmod, center_block_vals_getD ch W r c y x hy hx,
            if_pos ⟨by omega, hcb⟩]
      · subst hrk
        rw [blockLoop_miss _ _ _ _ _
              (fun i _ => le_of_eq (center_block_vals_length ch W r i))
              (fun i hi => by
                show r*bx + i ≠ ((r*bx+c)*64 + (y*8+x)) / 64
                omega)]
        rw [ih m (by omega), if_neg (by omega), if_neg (by omega)]
    · rw [blockLoop_miss _ _ _ _ _
            (fun i _ => le_of_eq (center_block_vals_length ch W k i))
            (fun i hi => ?_)]
      · rw [ih m (by omega)]
        by_cases hck : r < k ∧ c < bxf
        · rw [if_pos hck, if_pos (by omega)]
        · rw [if_neg hck, if_neg (by omega)]
      · show k*bx + i ≠ ((r*bx+c)*64 + (y*8+x)) / 64
        rw [hdiv]
        intro heq
        exact absurd (blockId_unique hbx (by omega) hc heq).1.symm hrk

/-- Projection of extract_blocks used when reasoning stage by stage. -/
theorem extract_blocks_fst (ch : ℕ → ℤ) (W H : ℕ) :
    (extract_blocks ch W H).1 =
      if W/8 < (W+7)/8 ∨ H/8 < (H+7)/8 then
        extract_edge_blocks ch W H ((W+7)/8) ((H+7)/8) (W/8) (H/8)
          (extract_center_blocks ch W ((W+7)/8) (W/8) (H/8) (fun _ => 0))
      else extract_center_blocks ch W ((W+7)/8) (W/8) (H/8) (fun _ => 0) := rfl

/-- Reading back after the center pass, stated for the full loop. -/
theorem extract_center_blocks_apply (ch : ℕ → ℤ) (W bx bxf byf : ℕ)
    (r c y x : ℕ) (hbx : 0 < bx) (hbxf : bxf ≤ bx) (hc : c < bx)
    (hy : y < 8) (hx : x < 8) (m : ℕ → ℤ) :
    extract_center_blocks ch W bx bxf byf m ((r*bx+c)*64 + (y*8+x)) =
      if r < byf ∧ c < bxf then ch ((r*8+y) * W + (c*8+x))
      else m ((r*bx+c)*64 + (y*8+x)) :=
  extract_center_apply ch W bx bxf byf r c y x hbx hbxf hc hy hx byf m le_rfl

/-- The corner stage leaves every cell outside the corner block unchanged
(trivially so when the stage's guard is false). -/
theorem extract_edge_corner_miss (ch : ℕ → ℤ) (W H bx byCnt bxf byf : ℕ)
    (m : ℕ → ℤ) (n : ℕ) (h : bxf < bx → byf < byCnt → n / 64 ≠ byf*bx + bxf) :
    extract_edge_corner ch W H bx byCnt bxf byf m n = m n := by
  unfold extract_edge_corner
  split
  · next hg =>
      rw [writeSeq_apply, if_neg]
      have := corner_vals_length ch W (W - bxf*8) (H - byf*8) bxf byf
      have hne := h hg.1 hg.2
      omega
  · rfl

/-- The corner stage stores the corner block's run. -/
theorem extract_edge_corner_hit (ch : ℕ → ℤ) (W H bx byCnt bxf byf : ℕ)
    (m : ℕ → ℤ) (n : ℕ) (hc1 : bxf < bx) (hc2 : byf < byCnt)
    (h : n / 64 = byf*bx + bxf) :
    extract_edge_corner ch W H bx byCnt bxf byf m n =
      (corner_vals ch W (W - bxf*8) (H - byf*8) bxf byf).getD (n % 64) 0 := by
  unfold extract_edge_corner
  rw [if_pos ⟨hc1, hc2⟩, writeSeq_apply, if_pos]
  · congr 1
    omega
  · have := corner_vals_length ch W (W - bxf*8) (H - byf*8) bxf byf
    omega

/-- The bottom-row stage leaves cells outside its blocks unchanged. -/
theorem extract_edge_bottom_miss (ch : ℕ → ℤ) (W H bx byCnt bxf byf : ℕ)
    (m : ℕ → ℤ) (n : ℕ) (h : byf < byCnt → ∀ i, i < bxf → byf*bx + i ≠ n / 64) :
    extract_edge_bottom ch W H bx byCnt bxf byf m n = m n := by
  unfold extract_edge_bottom
  split
  · next hg =>
      exact blockLoop_miss _ _ _ _ _
        (fun i _ => le_of_eq (bottom_row_vals_length ch W (H - byf*8) byf i)) (h hg)
  · rfl

/-- The bottom-row stage stores block (by_full, c) for c < bx_full. -/
theorem extract_edge_bottom_hit (ch : ℕ → ℤ) (W H bx byCnt bxf byf : ℕ)
    (m : ℕ → ℤ) (n c : ℕ) (hc : c < bxf) (h2 : byf < byCnt)
    (hn : n / 64 = byf*bx + c) :
    extract_edge_bottom ch W H bx byCnt bxf byf m n =
      (bottom_row_vals ch W (H - byf*8) byf c).getD (n % 64) 0 := by
  unfold extract_edge_bottom
  rw [if_pos h2]
  exact blockLoop_hit _ _ _ c _ _ hc
    (fun i _ => bottom_row_vals_length ch W (H - byf*8) byf i)
    (fun i _ hne => by show byf*bx + i ≠ byf*bx + c; omega) hn

/-- The right-column stage leaves cells outside its blocks unchanged. -/
theorem extract_edge_right_miss (ch : ℕ → ℤ) (W bx bxf byf : ℕ)
    (m : ℕ → ℤ) (n : ℕ) (h : bxf < bx → ∀ j, j < byf → j*bx + bxf ≠ n / 64) :
    extract_edge_right ch W bx bxf byf m n = m n := by
  unfold extract_edge_right
  split
  · next hg =>
      exact blockLoop_miss _ _ _ _ _
        (fun j _ => le_of_eq (right_col_vals_length ch W (W - bxf*8) bxf j)) (h hg)
  · rfl

/-- The right-column stage stores block (r, bx_full) for r < by_full. -/
theorem extract_edge_right_hit (ch : ℕ → ℤ) (W bx bxf byf : ℕ)
    (m : ℕ → ℤ) (n r : ℕ) (hbx : 0 < bx) (hlt : bxf < bx) (hrf : r < byf)
    (hn : n / 64 = r*bx + bxf) :
    extract_edge_right ch W bx bxf byf m n =
      (right_col_vals ch W (W - bxf*8) bxf r).getD (n % 64) 0 := by
  unfold extract_edge_right
  rw [if_pos hlt]
  refine blockLoop_hit _ _ _ r _ _ hrf
    (fun j _ => right_col_vals_length ch W (W - bxf*8) bxf j)
    (fun j _ hne => ?_) hn
  show j*bx + bxf ≠ r*bx + bxf
  intro heq
  exact absurd (blockId_unique hbx hlt hlt heq).1 hne

/-- C8.  For a W×H channel (W, H > 0), extract_blocks reports
num_blocks = ceil(W/8) * ceil(H/8) blocks, stored contiguously in row-major
tile order, and the tile at tile-row r, tile-column c holds at local
position (y,x) the channel sample at row 8r+y, column 8c+x when that
position is inside the plane and zero past the right or bottom edge. -/
theorem extract_blocks_spec (ch : ℕ → ℤ) (W H : ℕ) (hW : 0 < W) (hH : 0 < H)
    (r c y x : ℕ) (hr : r < (H+7)/8) (hc : c < (W+7)/8) (hy : y < 8) (hx : x < 8) :
    (extract_blocks ch W H).2 = ((W+7)/8) * ((H+7)/8) ∧
    (extract_blocks ch W H).1 ((r * ((W+7)/8) + c) * 64 + (y*8+x)) =
      if 8*r + y < H ∧ 8*c + x < W then ch ((8*r+y) * W + (8*c+x)) else 0 := by
  refine ⟨rfl, ?_⟩
  rw [extract_blocks_fst]
  have hbx : 0 < (W+7)/8 := by omega
  have hbxf : W/8 ≤ (W+7)/8 := by omega
  have hdiv : ((r * ((W+7)/8) + c) * 64 + (y*8+x)) / 64 = r * ((W+7)/8) + c := by omega
  by_cases hcf : c < W/8 <;> by_cases hrf : r < H/8
  · -- full block: inside the plane, written by the center pass
    have hcond : 8*r + y < H ∧ 8*c + x < W := ⟨by omega, by omega⟩
    rw [if_pos hcond]
    have hcenter :
        extract_center_blocks ch W ((W+7)/8) (W/8) (H/8) (fun _ => 0)
            ((r * ((W+7)/8) + c) * 64 + (y*8+x)) = ch ((8*r+y) * W + (8*c+x)) := by
      rw [extract_center_blocks_apply ch W _ _ _ r c y x hbx hbxf hc hy hx,
          if_pos ⟨hrf, hcf⟩]
      congr 1
      ring
    split
    · rw [extract_edge_blocks,
          extract_edge_corner_miss _ _ _ _ _ _ _ _ _ (by
            intro h1 h2
            rw [hdiv]; intro heq
            exact absurd (blockId_unique hbx h1 hc heq.symm).1.symm (by omega)),
          extract_edge_bottom_miss _ _ _ _ _ _ _ _ _ (fun hg i hi => by
            rw [hdiv]; intro heq
            exact absurd (blockId_unique hbx (by omega) hc heq).1 (by omega)),
          extract_edge_right_miss _ _ _ _ _ _ _ (fun hg j hj => by
            rw [hdiv]; intro heq
            exact absurd (blockId_unique hbx hg hc heq).2 (by omega))]
      exact hcenter
    · exact hcenter
  · -- bottom row block: r = H/8, c < W/8
    have hre : r = H/8 := by omega
    have hedge : W/8 < (W+7)/8 ∨ H/8 < (H+7)/8 := by omega
    rw [if_pos hedge, extract_edge_blocks,
        extract_edge_corner_miss _ _ _ _ _ _ _ _ _ (by
          intro h1 h2
          rw [hdiv]; intro heq
          exact absurd (blockId_unique hbx h1 hc heq.symm).2.symm (by omega)),
        extract_edge_bottom_hit _ _ _ _ _ _ _ _ _ c hcf (by omega) (by rw [hdiv, hre])]
    have hmod : ((r * ((W+7)/8) + c) * 64 + (y*8+x)) % 64 = y*8+x := by omega
    rw [hmod, bottom_row_vals_getD _ _ _ _ _ _ _ hy hx]
    by_cases hyp : y < H - (H/8)*8
    · rw [if_pos hyp, if_pos ⟨by omega, by omega⟩]
      congr 1
      rw [hre]; ring
    · rw [if_neg hyp, if_neg (by omega)]
  · -- right column block: c = W/8, r < H/8
    have hce : c = W/8 := by omega
    have hlt : W/8 < (W+7)/8 := by omega
    have hedge : W/8 < (W+7)/8 ∨ H/8 < (H+7)/8 := Or.inl hlt
    rw [if_pos hedge, extract_edge_blocks,
        extract_edge_corner_miss _ _ _ _ _ _ _ _ _ (by
          intro h1 h2
          rw [hdiv]; intro heq
          exact absurd (blockId_unique hbx h1 hc heq.symm).1.symm (by omega)),
        extract_edge_bottom_miss _ _ _ _ _ _ _ _ _ (fun hg i hi => by
          rw [hdiv]; intro heq
          exact absurd (blockId_unique hbx (by omega) hc heq).1 (by omega)),
        extract_edge_right_hit _ _ _ _ _ _ _ r hbx hlt hrf (by rw [hdiv, hce])]
    have hmod : ((r * ((W+7)/8) + c) * 64 + (y*8+x)) % 64 = y*8+x := by omega
    rw [hmod, right_col_vals_getD _ _ _ _ _ _ _ hy hx]
    by_cases hxp : x < W - (W/8)*8
    · rw [if_pos hxp, if_pos ⟨by omega, by omega⟩]
      congr 1
      rw [hce]; ring
    · rw [if_neg hxp, if_neg (by omega)]
  · -- corner block: r = H/8, c = W/8
    have hre : r = H/8 := by omega
    have hce : c = W/8 := by omega
    have hlt : W/8 < (W+7)/8 := by omega
    have hlt2 : H/8 < (H+7)/8 := by omega
    rw [if_pos (Or.inl hlt), extract_edge_blocks,
        extract_edge_corner_hit _ _ _ _ _ _ _ _ _ hlt hlt2 (by rw [hdiv, hre, hce])]
    have hmod : ((r * ((W+7)/8) + c) * 64 + (y*8+x)) % 64 = y*8+x := by omega
    rw [hmod, corner_vals_getD _ _ _ _ _ _ _ _ hy hx]
    by_cases hp : y < H - (H/8)*8 ∧ x < W - (W/8)*8
    · rw [if_pos hp, if_pos ⟨by omega, by omega⟩]
      congr 1
      rw [hre, hce]; ring
    · rw [if_neg hp, if_neg (by omega)]

/-- Witness for C8 at the 9×1 channel ch(i) = i+3: tile row 0, tile column 1,
local position (0,0) is the in-plane sample at column 8, and (0,1) is padding. -/
theorem extract_blocks_spec_witness :
    (0 < 9 ∧ 0 < 1 ∧ 0 < 2 ∧ 1 < 2 ∧ 0 < 8) ∧
      (extract_blocks (fun i => (i : ℤ) + 3) 9 1).2 = ((9+7)/8) * ((1+7)/8) ∧
      (extract_blocks (fun i => (i : ℤ) + 3) 9 1).1 ((0 * ((9+7)/8) + 1) * 64 + (0*8+0)) =
        if 8*0 + 0 < 1 ∧ 8*1 + 0 < 9 then (fun i => (i : ℤ) + 3) ((8*0+0) * 9 + (8*1+0)) else 0 :=
  ⟨⟨by decide, by decide, by decide, by decide, by decide⟩,
   (extract_blocks_spec (fun i => (i : ℤ) + 3) 9 1 (by decide) (by decide)
      0 1 0 0 (by decide) (by decide) (by decide) (by decide)).1,
   (extract_blocks_spec (fun i => (i : ℤ) + 3) 9 1 (by decide) (by decide)
      0 1 0 0 (by decide) (by decide) (by decide) (by decide)).2⟩

/- ------------------------------------------------------------------ -/
/- Codec data model and orchestration (jpeg_codec.h, codec.c).        -/
/- ------------------------------------------------------------------ -/

/-- jpeg_error_t (jpeg_codec.h). -/
inductive jpeg_error_t : Type
  | success
  | nullPointer
  | invalidDimensions
  | allocationFailed
  | invalidMethod
deriving DecidableEq

/-- jpeg_dct_method_t (jpeg_codec.h). -/
inductive jpeg_dct_method_t : Type
  | loeffler
  | matrix
  | approx
  | identity
deriving DecidableEq

/-- jpeg_colorspace_t (jpeg_codec.h). -/
inductive jpeg_colorspace_t : Type
  | rgb
  | grayscale
deriving DecidableEq

/-- jpeg_image_t (jpeg_codec.h).  Width and height are int32 values; the
pixel buffer is a byte array, `none` modelling a NULL data pointer. -/
structure jpeg_image_t : Type where
  width : ℤ
  height : ℤ
  colorspace : jpeg_colorspace_t
  data : Option (ℕ → ℤ)

/-- jpeg_params_t (jpeg_codec.h).  The float quality_factor enters the
codec only as k_fixed = (int32_t)(quality_factor * 1024), stored here
directly; skip_quantization is the C int32 flag (nonzero = skip). -/
structure jpeg_params_t : Type where
  quality_fixed : ℤ
  dct_method : jpeg_dct_method_t
  use_standard_tables : ℤ
  skip_quantization : ℤ

/-- jpeg_compressed_t (jpeg_codec.h): dimensions, persisted parameters,
block counts and the six per-channel coefficient arrays. -/
structure jpeg_compressed_t : Type where
  width : ℤ
  height : ℤ
  quality_fixed : ℤ
  dct_method : jpeg_dct_method_t
  num_blocks_y : ℕ
  num_blocks_chroma : ℕ
  y_coeffs : ℕ → ℤ
  y_quantized : ℕ → ℤ
  cb_coeffs : ℕ → ℤ
  cb_quantized : ℕ → ℤ
  cr_coeffs : ℕ → ℤ
  cr_quantized : ℕ → ℤ

/-- DCT selection in jpeg_compress (codec.c lines 86–91): an if-chain on the
method tag whose final else falls back to Loeffler. -/
def dct_for : jpeg_dct_method_t → QTable → QTable
  | .matrix => dct_matrix_2d
  | .approx => dct_approx_2d
  | .identity => dct_identity_2d
  | .loeffler => dct_loeffler_2d

/-- A channel plane as built by the batch conversion loops: CODEC_CALLOC
zero memory overwritten with the per-pixel values at indices 0,1,…. -/
def channel_mem (vals : List ℤ) : ℕ → ℤ := writeSeq (fun _ => 0) 0 vals

/-- Per-pixel Y values of the color-conversion step (codec.c lines 63–78):
for RGB input the batch converter reads bytes 3p, 3p+1, 3p+2 of pixel p;
for grayscale input Y = byte − 128. -/
def compress_y_vals (cs : jpeg_colorspace_t) (dataF : ℕ → ℤ) (total : ℕ) : List ℤ :=
  if cs = .rgb then
    (List.range total).map (fun px =>
      (rgb_to_ycbcr (dataF (3*px)) (dataF (3*px+1)) (dataF (3*px+2))).1)
  else
    (List.range total).map (fun px => dataF px - 128)

/-- Per-pixel Cb values (codec.c lines 63–78); zero for grayscale input. -/
def compress_cb_vals (cs : jpeg_colorspace_t) (dataF : ℕ → ℤ) (total : ℕ) : List ℤ :=
  if cs = .rgb then
    (List.range total).map (fun px =>
      (rgb_to_ycbcr (dataF (3*px)) (dataF (3*px+1)) (dataF (3*px+2))).2.1)
  else
    List.replicate total 0

/-- Per-pixel Cr values (codec.c lines 63–78); zero for grayscale input. -/
def compress_cr_vals (cs : jpeg_colorspace_t) (dataF : ℕ → ℤ) (total : ℕ) : List ℤ :=
  if cs = .rgb then
    (List.range total).map (fun px =>
      (rgb_to_ycbcr (dataF (3*px)) (dataF (3*px+1)) (dataF (3*px+2))).2.2)
  else
    List.replicate total 0

/-- The 8×8 tile at block index b of a flat block array (the marching
64-element windows of the per-block loop in codec.c). -/
def block_tile (arr : ℕ → ℤ) (b : ℕ) : QTable :=
  fun y x => arr (b*64 + (y.val*8 + x.val))

/-- A tile serialized back to its flat 64-cell run. -/
def tile_list (t : QTable) : List ℤ :=
  List.ofFn (fun p : Fin 64 =>
    t ⟨p.val/8, by have := p.isLt; omega⟩ ⟨p.val % 8, by have := p.isLt; omega⟩)

/-- The *_coeffs output arrays of the per-block loop (codec.c lines 98–117):
block b of the output holds the forward transform of block b of the input. -/
def compress_coeff_array (f : QTable → QTable) (blks : ℕ → ℤ) (num : ℕ) : ℕ → ℤ :=
  blockLoop num (fun b => b) (fun b => tile_list (f (block_tile blks b))) (fun _ => 0)

/-- The *_quantized output arrays of the per-block loop (codec.c lines
98–117): when skip_quantization is nonzero the raw coefficients are copied
(memcpy), otherwise each transformed block is quantized with quantize_fast.
There is no special case for the Identity transform. -/
def compress_quant_array (f : QTable → QTable) (blks : ℕ → ℤ) (num : ℕ)
    (qt rt : QTable) (skip : ℤ) : ℕ → ℤ :=
  if skip ≠ 0 then
    blockLoop num (fun b => b) (fun b => tile_list (f (block_tile blks b))) (fun _ => 0)
  else
    blockLoop num (fun b => b)
      (fun b => tile_list (quantize_fast (f (block_tile blks b)) qt rt)) (fun _ => 0)

/-- The body of jpeg_compress after validation (codec.c lines 18–121),
for an image whose data pointer is present (dataF): scale the two
quantization tables (no norm correction is applied for any method),
precompute reciprocals, convert the colorspace, extract 8×8 blocks of the
three planes, then transform and quantize block by block. -/
def jpeg_compress_pipeline (img : jpeg_image_t) (p : jpeg_params_t)
    (dataF : ℕ → ℤ) : jpeg_compressed_t :=
  { width := img.width
    height := img.height
    quality_fixed := p.quality_fixed
    dct_method := p.dct_method
    num_blocks_y := ((img.width.toNat + 7)/8) * ((img.height.toNat + 7)/8)
    num_blocks_chroma := ((img.width.toNat + 7)/8) * ((img.height.toNat + 7)/8)
    y_coeffs := compress_coeff_array (dct_for p.dct_method)
      (extract_blocks
        (channel_mem (compress_y_vals img.colorspace dataF
          (img.width.toNat * img.height.toNat)))
        img.width.toNat img.height.toNat).1
      (((img.width.toNat + 7)/8) * ((img.height.toNat + 7)/8))
    y_quantized := compress_quant_array (dct_for p.dct_method)
      (extract_blocks
        (channel_mem (compress_y_vals img.colorspace dataF
          (img.width.toNat * img.height.toNat)))
        img.width.toNat img.height.toNat).1
      (((img.width.toNat + 7)/8) * ((img.height.toNat + 7)/8))
      (scale_quant_table Q50_LUMA p.quality_fixed)
      (compute_reciprocal_table (scale_quant_table Q50_LUMA p.quality_fixed))
      p.skip_quantization
    cb_coeffs := compress_coeff_array (dct_for p.dct_method)
      (extract_blocks
        (channel_mem (compress_cb_vals img.colorspace dataF
          (img.width.toNat * img.height.toNat)))
        img.width.toNat img.height.toNat).1
      (((img.width.toNat + 7)/8) * ((img.height.toNat + 7)/8))
    cb_quantized := compress_quant_array (dct_for p.dct_method)
      (extract_blocks
        (channel_mem (compress_cb_vals img.colorspace dataF
          (img.width.toNat * img.height.toNat)))
        img.width.toNat img.height.toNat).1
      (((img.width.toNat + 7)/8) * ((img.height.toNat + 7)/8))
      (scale_quant_table Q50_CHROMA p.quality_fixed)
      (compute_reciprocal_table (scale_quant_table Q50_CHROMA p.quality_fixed))
      p.skip_quantization
    cr_coeffs := compress_coeff_array (dct_for p.dct_method)
      (extract_blocks
        (channel_mem (compress_cr_vals img.colorspace dataF
          (img.width.toNat * img.height.toNat)))
        img.width.toNat img.height.toNat).1
      (((img.width.toNat + 7)/8) * ((img.height.toNat + 7)/8))
    cr_quantized := compress_quant_array (dct_for p.dct_method)
      (extract_blocks
        (channel_mem (compress_cr_vals img.colorspace dataF
          (img.width.toNat * img.height.toNat)))
        img.width.toNat img.height.toNat).1
      (((img.width.toNat + 7)/8) * ((img.height.toNat + 7)/8))
      (scale_quant_table Q50_CHROMA p.quality_fixed)
      (compute_reciprocal_table (scale_quant_table Q50_CHROMA p.quality_fixed))
      p.skip_quantization }

/-- jpeg_compress (codec.c lines 9–122).  Validation checks the three
pointers and the dimensions, in that order; nothing checks that the pixel
data is present.  Allocation is modelled as succeeding, so every surviving
path returns JPEG_SUCCESS; a missing data pointer (undefined behaviour in
the C code, which would read through NULL) is modelled by reading a default
zero array. -/
def jpeg_compress (image : Option jpeg_image_t) (params : Option jpeg_params_t)
    (outPtr : Bool) : jpeg_error_t × Option jpeg_compressed_t :=
  match image, params, outPtr with
  | none, _, _ => (.nullPointer, none)
  | _, none, _ => (.nullPointer, none)
  | _, _, false => (.nullPointer, none)
  | some img, some p, true =>
    if img.width ≤ 0 ∨ img.height ≤ 0 then (.invalidDimensions, none)
    else (.success, some (jpeg_compress_pipeline img p (img.data.getD (fun _ => 0))))

/-- The error result of jpeg_decompress (codec.c lines 124–213): the only
validation is the null check on the two pointers; with allocation modelled
as succeeding, every other input runs the full pipeline and returns
JPEG_SUCCESS.  No dimension or array-size validation exists. -/
def jpeg_decompress_status (compressed : Option jpeg_compressed_t)
    (imageOut : Bool) : jpeg_error_t :=
  match compressed, imageOut with
  | none, _ => .nullPointer
  | _, false => .nullPointer
  | some _, true => .success

/-- Concrete 8×8 grayscale image, every pixel 200 (Y tile constant 72). -/
def gray200_image : jpeg_image_t :=
  { width := 8, height := 8, colorspace := .grayscale, data := some (fun _ => 200) }

/-- Identity-transform parameters with quantization enabled (k = 1). -/
def identity_params : jpeg_params_t :=
  { quality_fixed := 1024, dct_method := .identity,
    use_standard_tables := 1, skip_quantization := 0 }

set_option maxRecDepth 100000

/-- C1 (code evaluated at the failing input).  Compressing the constant-200
8×8 grayscale image with transform_choice = Identity and skip_quantization
= false: the stored coefficient array holds the identity-copied input tile
(value 72), but the quantized array holds quantize(72) = 5 — jpeg_compress
has no Identity bypass and quantizes, so Q_Y is not the input tile even
though jpeg_decompress would copy Q_Y through without dequantization. -/
theorem compress_identity_quantizes_evaluation :
    (jpeg_compress_pipeline gray200_image identity_params (fun _ => 200)).y_coeffs 0 = 72 ∧
    (jpeg_compress_pipeline gray200_image identity_params (fun _ => 200)).y_quantized 0 = 5 ∧
    (5 : ℤ) ≠ 72 := by
  refine ⟨by decide, by decide, by decide⟩

/-- Approximate-transform parameters with quantization enabled (k = 1). -/
def approx_params : jpeg_params_t :=
  { quality_fixed := 1024, dct_method := .approx,
    use_standard_tables := 1, skip_quantization := 0 }

/-- C2 (code evaluated at the failing input).  jpeg_compress never calls
apply_approx_norm_correction: for the constant-200 8×8 grayscale image with
transform_choice = Approx, the DC of the quantized luma block is 288 —
quantization by the plain scaled table entry 16 — whereas the
norm-corrected table prescribed by the specification has entry 128 at DC
and would give 36. -/
theorem compress_approx_table_lacks_norm_correction :
    (jpeg_compress_pipeline gray200_image approx_params (fun _ => 200)).y_quantized 0 = 288 ∧
    scale_quant_table Q50_LUMA 1024 0 0 = 16 ∧
    apply_approx_norm_correction (scale_quant_table Q50_LUMA 1024) 0 0 = 128 ∧
    quantize_fast_entry (dct_approx_2d (fun _ _ => 72) 0 0)
      (apply_approx_norm_correction (scale_quant_table Q50_LUMA 1024) 0 0)
      (reciprocal_entry (apply_approx_norm_correction (scale_quant_table Q50_LUMA 1024) 0 0)) = 36 ∧
    (288 : ℤ) ≠ 36 := by
  refine ⟨by decide, by decide, by decide, by decide, by decide⟩

/-- C6 (counterexample).  An image with positive dimensions but an absent
pixel buffer passes jpeg_compress's validation: the call returns
JPEG_SUCCESS and proceeds with compression instead of returning NullInput
or InvalidDimensions. -/
theorem compress_accepts_missing_data :
    (jpeg_compress
        (some { width := 1, height := 1, colorspace := .grayscale, data := none })
        (some identity_params) true).1 = .success := by
  rfl

/-- C6 (amended).  jpeg_compress returns NullPointer when the image, the
parameters or the output pointer is missing, InvalidDimensions when a
dimension is non-positive, and otherwise (allocation succeeding) returns
JPEG_SUCCESS regardless of whether the pixel data is present — the
validation never checks image->data. -/
theorem compress_validation (img : jpeg_image_t) (p : jpeg_params_t) :
    ((jpeg_compress none (some p) true).1 = .nullPointer) ∧
    ((jpeg_compress (some img) none true).1 = .nullPointer) ∧
    ((jpeg_compress (some img) (some p) false).1 = .nullPointer) ∧
    (img.width ≤ 0 ∨ img.height ≤ 0 →
      (jpeg_compress (some img) (some p) true).1 = .invalidDimensions) ∧
    (0 < img.width → 0 < img.height →
      (jpeg_compress (some img) (some p) true).1 = .success) := by
  refine ⟨rfl, rfl, rfl, ?_, ?_⟩
  · intro h
    simp [jpeg_compress, if_pos h]
  · intro h1 h2
    simp [jpeg_compress, if_neg (by omega : ¬ (img.width ≤ 0 ∨ img.height ≤ 0))]

/-- Witness for C6's amended theorem: the data-absent 1×1 image is accepted. -/
theorem compress_validation_witness :
    (0 : ℤ) < 1 ∧
      (jpeg_compress
          (some { width := 1, height := 1, colorspace := .grayscale, data := none })
          (some identity_params) true).1 = .success :=
  ⟨by decide,
   (compress_validation
       { width := 1, height := 1, colorspace := .grayscale, data := none }
       identity_params).2.2.2.2 (by decide) (by decide)⟩

/-- C5 (counterexample).  A compressed object with width −3 — a non-positive
dimension, which the claim says must be rejected with InvalidDimensions —
is decompressed successfully: jpeg_decompress performs no dimension or
array-size validation. -/
theorem decompress_no_dimension_check :
    jpeg_decompress_status
        (some { width := -3, height := 4, quality_fixed := 1024,
                dct_method := .loeffler, num_blocks_y := 0, num_blocks_chroma := 0,
                y_coeffs := fun _ => 0, y_quantized := fun _ => 0,
                cb_coeffs := fun _ => 0, cb_quantized := fun _ => 0,
                cr_coeffs := fun _ => 0, cr_quantized := fun _ => 0 }) true
      = .success ∧ (-3 : ℤ) ≤ 0 := by
  exact ⟨rfl, by decide⟩

/-- C5 (amended).  jpeg_decompress validates only pointer nullity: a missing
compressed object or output pointer yields NullPointer, and every non-null
input — whatever its dimensions or arrays — proceeds and (allocation
succeeding) returns JPEG_SUCCESS; in particular no call ever returns
InvalidDimensions. -/
theorem decompress_validation (c : jpeg_compressed_t) :
    (jpeg_decompress_status none true = .nullPointer) ∧
    (jpeg_decompress_status (some c) false = .nullPointer) ∧
    (jpeg_decompress_status (some c) true = .success) ∧
    (∀ c2 : jpeg_compressed_t, ∀ o : Bool,
      jpeg_decompress_status (some c2) o ≠ .invalidDimensions) := by
  refine ⟨rfl, rfl, rfl, fun c2 o => ?_⟩
  cases o <;> simp [jpeg_decompress_status]

/-- A serialized tile occupies exactly 64 cells. -/
theorem tile_list_length (t : QTable) : (tile_list t).length = 64 := by
  simp [tile_list]

/-- Reading a serialized tile back: cell k holds entry (k/8, k%8). -/
theorem tile_list_getD (t : QTable) (k : ℕ) (hk : k < 64) :
    (tile_list t).getD k 0 = t ⟨k/8, by omega⟩ ⟨k % 8, by omega⟩ := by
  unfold tile_list
  rw [getD_ofFn64 _ _ hk]

/-- The grayscale branch stores zero for every Cb sample. -/
theorem compress_cb_vals_gray (dataF : ℕ → ℤ) (t : ℕ) :
    compress_cb_vals .grayscale dataF t = List.replicate t 0 := by
  simp [compress_cb_vals]

/-- The grayscale branch stores zero for every Cr sample. -/
theorem compress_cr_vals_gray (dataF : ℕ → ℤ) (t : ℕ) :
    compress_cr_vals .grayscale dataF t = List.replicate t 0 := by
  simp [compress_cr_vals]

/-- A channel built from all-zero per-pixel values is zero everywhere. -/
theorem channel_mem_replicate_zero (t n : ℕ) :
    channel_mem (List.replicate t (0:ℤ)) n = 0 := by
  unfold channel_mem
  rw [writeSeq_apply]
  split
  · rw [List.getD_eq_getElem?_getD, List.getElem?_replicate]
    split <;> rfl
  · rfl

/-- extract_blocks of an all-zero channel produces an all-zero block array
(inside the num_blocks·64 cells). -/
theorem extract_blocks_zero (ch : ℕ → ℤ) (W H : ℕ) (hW : 0 < W) (hH : 0 < H)
    (hch : ∀ n, ch n = 0) (idx : ℕ)
    (hidx : idx < ((W+7)/8) * ((H+7)/8) * 64) :
    (extract_blocks ch W H).1 idx = 0 := by
  have hbx : 0 < (W+7)/8 := by omega
  have hcomm : ((W+7)/8) * ((H+7)/8) = ((H+7)/8) * ((W+7)/8) := Nat.mul_comm _ _
  have hblt : idx / 64 < ((W+7)/8) * ((H+7)/8) := by omega
  have hrb : idx / 64 / ((W+7)/8) < (H+7)/8 :=
    (Nat.div_lt_iff_lt_mul hbx).2 (by omega)
  have hcb : idx / 64 % ((W+7)/8) < (W+7)/8 := Nat.mod_lt _ hbx
  have h1 := Nat.div_add_mod (idx / 64) ((W+7)/8)
  have hcomm2 : ((W+7)/8) * (idx / 64 / ((W+7)/8)) = (idx / 64 / ((W+7)/8)) * ((W+7)/8) :=
    Nat.mul_comm _ _
  have hdecomp : idx =
      ((idx / 64 / ((W+7)/8)) * ((W+7)/8) + idx / 64 % ((W+7)/8)) * 64 +
        (((idx % 64)/8)*8 + idx % 64 % 8) := by omega
  rw [hdecomp,
      (extract_blocks_spec ch W H hW hH (idx / 64 / ((W+7)/8)) (idx / 64 % ((W+7)/8))
        ((idx % 64)/8) (idx % 64 % 8) hrb hcb (by omega) (by omega)).2]
  split
  · rw [hch]
  · rfl

/-- Every entry of the Q=50 chrominance table lies in [1, 121]. -/
theorem q50_chroma_bounds : ∀ i j : Fin 8, 1 ≤ Q50_CHROMA i j ∧ Q50_CHROMA i j ≤ 121 := by
  decide

/-- Scaled-table entries stay in [1, 968] for qualities k in [1, 8]
(k_fixed in [1024, 8192]) over base entries in [1, 121]. -/
theorem scale_quant_table_bounds (base : QTable) (kF : ℤ)
    (hk1 : 1024 ≤ kF) (hk2 : kF ≤ 8192)
    (hb : ∀ i j, 1 ≤ base i j ∧ base i j ≤ 121) (i j : Fin 8) :
    1 ≤ scale_quant_table base kF i j ∧ scale_quant_table base kF i j ≤ 968 := by
  unfold scale_quant_table
  simp only
  split
  · exact ⟨le_refl 1, by norm_num⟩
  · next h =>
    refine ⟨by omega, ?_⟩
    have hbb := hb i j
    have hnum : base i j * kF ≤ 121 * 8192 :=
      mul_le_mul hbb.2 hk2 (by omega) (by norm_num)
    calc base i j * kF / 1024 ≤ 121 * 8192 / 1024 :=
          Int.ediv_le_ediv (by norm_num) hnum
      _ = 968 := by norm_num

/-- The quantizers map coefficient 0 to 0 for every table entry in [1, 968]:
the rounding bias q/2 multiplied by the reciprocal stays below 2^16. -/
theorem quantize_fast_entry_zero (q : ℤ) (h1 : 1 ≤ q) (h2 : q ≤ 968) :
    quantize_fast_entry 0 q (reciprocal_entry q) = 0 := by
  have hcd : cdiv q 2 = q / 2 := cdiv_of_nonneg 2 (by omega)
  have hr : reciprocal_entry q = (65536 + q/2) / q := by rw [reciprocal_entry, hcd]
  have hrnn : 0 ≤ (65536 + q/2) / q := Int.ediv_nonneg (by omega) (by omega)
  have key := Int.ediv_add_emod (65536 + q/2) q
  have hmodnn : 0 ≤ (65536 + q/2) % q := Int.emod_nonneg _ (by omega)
  have hqr : q * ((65536 + q/2) / q) ≤ 65536 + q/2 := by omega
  have hprod : (q/2) * ((65536 + q/2)/q) < 65536 := by
    nlinarith [mul_nonneg (show (0:ℤ) ≤ q - 2*(q/2) by omega) hrnn, hqr, hrnn]
  have hnn : 0 ≤ (q/2) * ((65536 + q/2)/q) := mul_nonneg (by omega) hrnn
  simp only [quantize_fast_entry, hr]
  rw [if_pos (le_refl (0:ℤ)), zero_add]
  exact Int.ediv_eq_zero_of_lt hnn hprod

/-- All four forward transforms map the zero tile to the zero tile. -/
theorem dct_for_zero (m : jpeg_dct_method_t) :
    dct_for m (fun _ _ => 0) = (fun _ _ => 0) := by
  cases m <;> decide

/-- Reading one cell of a per-block output loop over blocks 0..num-1. -/
theorem blockLoop_id_read (num : ℕ) (vals : ℕ → List ℤ) (m : ℕ → ℤ) (idx : ℕ)
    (hlen : ∀ b, b < num → (vals b).length = 64) (hidx : idx < num * 64) :
    blockLoop num (fun b => b) vals m idx = (vals (idx / 64)).getD (idx % 64) 0 :=
  blockLoop_hit _ _ _ (idx/64) _ _ (by omega) hlen (fun j _ hne => hne) (by simp)

/-- A coefficient output array over all-zero input blocks is zero. -/
theorem compress_coeff_array_zero (m : jpeg_dct_method_t) (blks : ℕ → ℤ) (num : ℕ)
    (htile : ∀ b, b < num → block_tile blks b = (fun _ _ => 0)) (idx : ℕ)
    (hidx : idx < num * 64) :
    compress_coeff_array (dct_for m) blks num idx = 0 := by
  unfold compress_coeff_array
  rw [blockLoop_id_read num _ _ idx (fun b _ => tile_list_length _) hidx,
      htile (idx/64) (by omega), dct_for_zero, tile_list_getD _ _ (by omega)]

/-- A quantized output array over all-zero input blocks is zero, for any
skip_quantization flag and any chroma table scaled with k_fixed in
[1024, 8192]. -/
theorem compress_quant_array_zero (m : jpeg_dct_method_t) (blks : ℕ → ℤ) (num : ℕ)
    (kF skip : ℤ) (hk1 : 1024 ≤ kF) (hk2 : kF ≤ 8192)
    (htile : ∀ b, b < num → block_tile blks b = (fun _ _ => 0)) (idx : ℕ)
    (hidx : idx < num * 64) :
    compress_quant_array (dct_for m) blks num
      (scale_quant_table Q50_CHROMA kF)
      (compute_reciprocal_table (scale_quant_table Q50_CHROMA kF)) skip idx = 0 := by
  unfold compress_quant_array
  split
  · rw [blockLoop_id_read num _ _ idx (fun b _ => tile_list_length _) hidx,
        htile (idx/64) (by omega), dct_for_zero, tile_list_getD _ _ (by omega)]
  · rw [blockLoop_id_read num _ _ idx (fun b _ => tile_list_length _) hidx,
        htile (idx/64) (by omega), dct_for_zero, tile_list_getD _ _ (by omega)]
    show quantize_fast_entry 0 _ _ = 0
    exact quantize_fast_entry_zero _
      (scale_quant_table_bounds Q50_CHROMA kF hk1 hk2 q50_chroma_bounds _ _).1
      (scale_quant_table_bounds Q50_CHROMA kF hk1 hk2 q50_chroma_bounds _ _).2

/-- C10.  For every grayscale image with positive dimensions and quality
k in [1, 8] (k_fixed in [1024, 8192]), compression produces all-zero Cb and
Cr coefficient and quantized arrays, for every transform choice and any
skip_quantization flag: the chroma planes are zeroed, every forward
transform fixes the zero tile, and both the quantizing and the
copy-through paths map it to zero. -/
theorem compress_grayscale_chroma_zero (img : jpeg_image_t) (p : jpeg_params_t)
    (dataF : ℕ → ℤ) (hcs : img.colorspace = .grayscale)
    (hW : 0 < img.width) (hH : 0 < img.height)
    (hk1 : 1024 ≤ p.quality_fixed) (hk2 : p.quality_fixed ≤ 8192)
    (idx : ℕ)
    (hidx : idx < (jpeg_compress_pipeline img p dataF).num_blocks_y * 64) :
    (jpeg_compress_pipeline img p dataF).cb_coeffs idx = 0 ∧
    (jpeg_compress_pipeline img p dataF).cb_quantized idx = 0 ∧
    (jpeg_compress_pipeline img p dataF).cr_coeffs idx = 0 ∧
    (jpeg_compress_pipeline img p dataF).cr_quantized idx = 0 := by
  have hWn : 0 < img.width.toNat := by omega
  have hHn : 0 < img.height.toNat := by omega
  simp only [jpeg_compress_pipeline] at hidx ⊢
  rw [hcs, compress_cb_vals_gray, compress_cr_vals_gray]
  have hch : ∀ n, channel_mem (List.replicate (img.width.toNat * img.height.toNat) (0:ℤ)) n = 0 :=
    channel_mem_replicate_zero _
  have htile : ∀ b, b < ((img.width.toNat + 7)/8) * ((img.height.toNat + 7)/8) →
      block_tile (extract_blocks
        (channel_mem (List.replicate (img.width.toNat * img.height.toNat) (0:ℤ)))
        img.width.toNat img.height.toNat).1 b = (fun _ _ => 0) := by
    intro b hb
    funext y x
    show (extract_blocks _ _ _).1 (b*64 + (y.val*8 + x.val)) = 0
    refine extract_blocks_zero _ _ _ hWn hHn hch _ ?_
    have hyl := y.isLt
    have hxl := x.isLt
    omega
  exact ⟨compress_coeff_array_zero p.dct_method _ _ htile idx hidx,
         compress_quant_array_zero p.dct_method _ _ p.quality_fixed p.skip_quantization
           hk1 hk2 htile idx hidx,
         compress_coeff_array_zero p.dct_method _ _ htile idx hidx,
         compress_quant_array_zero p.dct_method _ _ p.quality_fixed p.skip_quantization
           hk1 hk2 htile idx hidx⟩

/-- Witness for C10 at the constant-200 8×8 grayscale image with the
Identity transform: the first quantized Cb cell is zero. -/
theorem compress_grayscale_chroma_zero_witness :
    (gray200_image.colorspace = .grayscale ∧ (0:ℤ) < 8 ∧
      (1024 : ℤ) ≤ 1024 ∧ (1024 : ℤ) ≤ 8192 ∧
      0 < (jpeg_compress_pipeline gray200_image identity_params (fun _ => 200)).num_blocks_y * 64) ∧
    (jpeg_compress_pipeline gray200_image identity_params (fun _ => 200)).cb_quantized 0 = 0 :=
  ⟨⟨rfl, by decide, by decide, by decide, by decide⟩,
   (compress_grayscale_chroma_zero gray200_image identity_params (fun _ => 200)
      rfl (by decide) (by decide) (by decide) (by decide) 0 (by decide)).2.1⟩

/- ------------------------------------------------------------------ -/
/- Metrics (src/metrics.c).  The double-precision accumulation is     -/
/- modelled over ℝ: the three properties proved about it (symmetry,   -/
/- non-negativity, the 100 dB sentinel on identical inputs) are exact -/
/- identities of the computed expressions.                            -/
/- ------------------------------------------------------------------ -/

/-- calc_psnr (src/metrics.c): MSE over the W·H·3 bytes of both rasters;
below 1e-10 the 100 dB sentinel, otherwise 10·log10(255²/MSE). -/
noncomputable def calc_psnr (orig recon : ℕ → ℝ) (width height : ℕ) : ℝ :=
  let total := width * height * 3
  let mse := (∑ i ∈ Finset.range total, (orig i - recon i) * (orig i - recon i)) / total
  if mse < 1e-10 then 100 else 10 * Real.logb 10 (255 * 255 / mse)

/-- C9.  PSNR is symmetric in its two rasters; it is never negative when
both rasters hold byte values (range [0, 255]); and PSNR(A, A) = 100, the
sentinel returned whenever MSE < 1e-10. -/
theorem calc_psnr_properties (orig recon : ℕ → ℝ) (width height : ℕ)
    (ho : ∀ i, 0 ≤ orig i ∧ orig i ≤ 255) (hrc : ∀ i, 0 ≤ recon i ∧ recon i ≤ 255) :
    calc_psnr orig recon width height = calc_psnr recon orig width height ∧
    0 ≤ calc_psnr orig recon width height ∧
    calc_psnr orig orig width height = 100 := by
  refine ⟨?_, ?_, ?_⟩
  · unfold calc_psnr
    simp only
    have hsum : (∑ i ∈ Finset.range (width * height * 3),
          (orig i - recon i) * (orig i - recon i)) =
        (∑ i ∈ Finset.range (width * height * 3),
          (recon i - orig i) * (recon i - orig i)) :=
      Finset.sum_congr rfl (fun i _ => by ring)
    rw [hsum]
  · unfold calc_psnr
    simp only
    split
    · norm_num
    · next hge =>
      push_neg at hge
      set total := width * height * 3 with htot
      set mse := (∑ i ∈ Finset.range total,
          (orig i - recon i) * (orig i - recon i)) / (total : ℝ) with hmse
      have hmse_pos : 0 < mse := lt_of_lt_of_le (by norm_num) hge
      have htot_pos : 0 < total := by
        by_contra h
        have ht0 : total = 0 := by omega
        have : mse = 0 := by
          rw [hmse, ht0]
          simp
        rw [this] at hmse_pos
        exact absurd hmse_pos (by norm_num)
      have hsum_le : (∑ i ∈ Finset.range total,
            (orig i - recon i) * (orig i - recon i)) ≤ (total : ℝ) * (255 * 255) := by
        calc (∑ i ∈ Finset.range total, (orig i - recon i) * (orig i - recon i))
            ≤ ∑ i ∈ Finset.range total, (255 * 255 : ℝ) := by
              refine Finset.sum_le_sum (fun i _ => ?_)
              have h1 := ho i
              have h2 := hrc i
              nlinarith [h1.1, h1.2, h2.1, h2.2]
          _ = (total : ℝ) * (255 * 255) := by
              rw [Finset.sum_const, Finset.card_range, nsmul_eq_mul]
      have hmse_le : mse ≤ 255 * 255 := by
        rw [hmse, div_le_iff₀ (by positivity)]
        calc (∑ i ∈ Finset.range total, (orig i - recon i) * (orig i - recon i))
            ≤ (total : ℝ) * (255 * 255) := hsum_le
          _ = 255 * 255 * (total : ℝ) := by ring
      have hx : 1 ≤ (255 * 255 : ℝ) / mse :=
        (one_le_div hmse_pos).2 hmse_le
      have := Real.logb_nonneg (by norm_num : (1:ℝ) < 10) hx
      positivity
  · unfold calc_psnr
    simp only
    have hz : (∑ i ∈ Finset.range (width * height * 3),
        (orig i - orig i) * (orig i - orig i)) = 0 :=
      Finset.sum_eq_zero (fun i _ => by ring)
    rw [hz]
    norm_num

/-- Witness for C9 at two constant 1×1 rasters with byte values 100, 101. -/
theorem calc_psnr_properties_witness :
    ((0:ℝ) ≤ 100 ∧ (100:ℝ) ≤ 255) ∧
      calc_psnr (fun _ => 100) (fun _ => 101) 1 1 =
        calc_psnr (fun _ => 101) (fun _ => 100) 1 1 ∧
      0 ≤ calc_psnr (fun _ => 100) (fun _ => 101) 1 1 ∧
      calc_psnr (fun _ => 100) (fun _ => 100) 1 1 = 100 :=
  ⟨⟨by norm_num, by norm_num⟩,
   calc_psnr_properties (fun _ => 100) (fun _ => 101) 1 1
     (fun i => ⟨by norm_num, by norm_num⟩) (fun i => ⟨by norm_num, by norm_num⟩)⟩
